import Mathlib

/-!
Verification development for the CIBICS Excel-import pipeline and its
frontend helpers.  The frontend pieces (error-message extraction,
column-selection state, role-scoped save payloads) are embedded directly
from the TypeScript sources under `frontend/src`.  The backend import
service (row normalisation, fingerprinting, duplicate detection, the two
commit modes and the stage fanout) is not present in the repository
snapshot, so those definitions are modelled from the specification, as
marked in their doc comments.
-/

set_option maxHeartbeats 1000000

namespace Cibics

/-- Modelled from the spec: the Row Normalizer collapses internal
whitespace runs to a single space (§4.1).  Auxiliary recursion over the
character list; the flag records whether the previous character was
whitespace. -/
def collapseWsAux : Bool → List Char → List Char
  | _, [] => []
  | prevWs, c :: cs =>
    if c.isWhitespace then
      if prevWs then collapseWsAux true cs
      else ' ' :: collapseWsAux true cs
    else c :: collapseWsAux false cs

/-- Modelled from the spec: whitespace-run collapsing on strings (§4.1). -/
def collapseWs (s : String) : String :=
  ⟨collapseWsAux false s.data⟩

/-- Whitespace test used by trimming and collapsing. -/
def isWsChar (c : Char) : Bool := c.isWhitespace

/-- Modelled from the spec: trimming of surrounding whitespace (§4.1),
written over the character list. -/
def strTrim (s : String) : String :=
  ⟨(((s.data.dropWhile isWsChar).reverse).dropWhile isWsChar).reverse⟩

/-- Modelled from the spec: case-folding for comparison (§4.1, §4.2),
written over the character list. -/
def strLower (s : String) : String :=
  ⟨s.data.map Char.toLower⟩

/-- Modelled from the spec: the textual tokens treated as "no value"
(§4.1: "", "-", "n/a", case-insensitive). -/
def NULL_TOKENS : List String := ["", "-", "n/a"]

/-- Modelled from the spec: normalisation of one key field for the
fingerprint — trim surrounding whitespace, case-fold, collapse internal
whitespace, and map the null tokens to "no value" (§3, §4.1). -/
def normKey : Option String → Option String
  | none => none
  | some s =>
    let t := collapseWs (strLower (strTrim s))
    if t ∈ NULL_TOKENS then none else some t

/-- Canonical form of an optional cell up to letter case and surrounding
whitespace: used to state when two raw cells "differ only in letter case
or leading/trailing whitespace". -/
def optCanon (o : Option String) : Option String :=
  o.map (fun s => strLower (strTrim s))

/-- Modelled from the spec: one normalised spreadsheet row (§3).
`source_row` is the 1-based position in the file; the eight key fields
feed the fingerprint; the remaining fields are free-form. -/
structure ImportRow where
  source_row : Nat
  sl_no : Option String
  custodian_code : Option String
  unlo_code : Option String
  short_name : Option String
  custodian_organization : Option String
  state : Option String
  site_address : Option String
  pincode : Option String
  city : Option String
  category_of_site : Option String
  customer_name : Option String
  mobile_no : Option String
  client_email : Option String
  status_text : Option String
deriving DecidableEq, Repr

/-- Modelled from the spec: the composite key over the eight normalised
key fields (§3). -/
structure Fingerprint where
  sl_no : Option String
  custodian_code : Option String
  unlo_code : Option String
  short_name : Option String
  custodian_organization : Option String
  state : Option String
  site_address : Option String
  pincode : Option String
deriving DecidableEq, Repr

/-- Modelled from the spec: computing a row's fingerprint (§3, §4.3). -/
def fingerprintOf (r : ImportRow) : Fingerprint :=
  { sl_no := normKey r.sl_no
    custodian_code := normKey r.custodian_code
    unlo_code := normKey r.unlo_code
    short_name := normKey r.short_name
    custodian_organization := normKey r.custodian_organization
    state := normKey r.state
    site_address := normKey r.site_address
    pincode := normKey r.pincode }

/-- Modelled from the spec: a fingerprint consisting entirely of null
fields is not a valid identity (§4.3). -/
def Fingerprint.isEmpty (fp : Fingerprint) : Bool :=
  fp.sl_no.isNone && fp.custodian_code.isNone && fp.unlo_code.isNone &&
  fp.short_name.isNone && fp.custodian_organization.isNone &&
  fp.state.isNone && fp.site_address.isNone && fp.pincode.isNone

/-- Modelled from the spec: a row with no content in any field is
rejected by the Row Normalizer (§4.1). -/
def ImportRow.hasContent (r : ImportRow) : Bool :=
  r.sl_no.isSome || r.custodian_code.isSome || r.unlo_code.isSome ||
  r.short_name.isSome || r.custodian_organization.isSome ||
  r.state.isSome || r.site_address.isSome || r.pincode.isSome ||
  r.city.isSome || r.category_of_site.isSome || r.customer_name.isSome ||
  r.mobile_no.isSome || r.client_email.isSome || r.status_text.isSome

theorem normKey_congr {a b : Option String} (h : optCanon a = optCanon b) :
    normKey a = normKey b := by
  cases a with
  | none =>
    cases b with
    | none => rfl
    | some s => simp [optCanon] at h
  | some s =>
    cases b with
    | none => simp [optCanon] at h
    | some t =>
      simp only [optCanon, Option.map_some', Option.some.injEq] at h
      simp [normKey, h]

/-- C2: two rows whose eight key fields agree after trimming and
case-folding — in particular rows differing only in letter case or
leading/trailing whitespace in any of those fields — have the same
fingerprint; since the hypotheses constrain nothing but the eight key
fields, no other input (in particular not `source_row`) influences the
fingerprint. -/
theorem fingerprint_stable (r1 r2 : ImportRow)
    (h1 : optCanon r1.sl_no = optCanon r2.sl_no)
    (h2 : optCanon r1.custodian_code = optCanon r2.custodian_code)
    (h3 : optCanon r1.unlo_code = optCanon r2.unlo_code)
    (h4 : optCanon r1.short_name = optCanon r2.short_name)
    (h5 : optCanon r1.custodian_organization = optCanon r2.custodian_organization)
    (h6 : optCanon r1.state = optCanon r2.state)
    (h7 : optCanon r1.site_address = optCanon r2.site_address)
    (h8 : optCanon r1.pincode = optCanon r2.pincode) :
    fingerprintOf r1 = fingerprintOf r2 := by
  simp only [fingerprintOf, normKey_congr h1, normKey_congr h2, normKey_congr h3,
    normKey_congr h4, normKey_congr h5, normKey_congr h6, normKey_congr h7,
    normKey_congr h8]

/-- A concrete row pair exercising `fingerprint_stable`: the second row
changes letter case, surrounding whitespace, `source_row` and the
free-form city column, yet the fingerprints coincide. -/
def rowPlain : ImportRow :=
  { source_row := 1, sl_no := some "7", custodian_code := some "cc1"
    unlo_code := some "u1", short_name := some "acme site"
    custodian_organization := some "acme org", state := some "delhi"
    site_address := some "12 main road", pincode := some "110001"
    city := some "delhi", category_of_site := none, customer_name := none
    mobile_no := none, client_email := none, status_text := some "Renuka" }

/-- Case/whitespace variant of `rowPlain` with different `source_row`
and free-form fields. -/
def rowVariant : ImportRow :=
  { source_row := 42, sl_no := some " 7 ", custodian_code := some "CC1"
    unlo_code := some "U1  ", short_name := some "  Acme Site"
    custodian_organization := some "ACME ORG", state := some "Delhi "
    site_address := some " 12 Main Road ", pincode := some "110001"
    city := some "gurgaon", category_of_site := some "dc", customer_name := none
    mobile_no := none, client_email := some "x@y.z", status_text := some "Renuka" }

theorem fingerprint_stable_witness :
    fingerprintOf rowPlain = fingerprintOf rowVariant :=
  fingerprint_stable rowPlain rowVariant (by decide) (by decide) (by decide)
    (by decide) (by decide) (by decide) (by decide) (by decide)

/-- The user roles of the application (`frontend/src/types.ts`). -/
inductive Role
  | SUPER_ADMIN
  | ASSIGNEE
  | EMAIL_TEAM
deriving DecidableEq, Repr

/-- Modelled from the spec: a user account; assignee accounts are created
implicitly by the Assignee Resolver (§3, §4.2).  `full_name` holds the
normalised display name. -/
structure User where
  id : Nat
  full_name : String
  role : Role
deriving DecidableEq, Repr

/-- Modelled from the spec: the persisted Record entity created from an
ImportRow (§3). -/
structure Record where
  id : Nat
  source_row : Nat
  fingerprint : Fingerprint
  city : Option String
  category_of_site : Option String
  customer_name : Option String
  mobile_no : Option String
  client_email : Option String
  notes : Option String
  status : String
  assignee_id : Option Nat
  assignee_name_hint : Option String
  email_alert_pending : Bool
  is_active : Bool
  deleted_by : Option Nat
  deleted_at : Option Nat
deriving DecidableEq, Repr

/-- Modelled from the spec: an ordered, named pipeline step (§3). -/
structure StageDef where
  id : Nat
  code : String
  name : String
  display_order : Nat
  is_default : Bool
  is_active : Bool
deriving DecidableEq, Repr

/-- Modelled from the spec: one stage-progress row per
(Record, StageDefinition) pair (§3). -/
structure RecordStage where
  record_id : Nat
  stage_id : Nat
  is_completed : Bool
  completed_at : Option Nat
  notes : Option String
deriving DecidableEq, Repr

/-- Modelled from the spec: the persistence layer's visible state —
records, users, stage definitions and stage-progress rows, plus the id
allocators (§6). -/
structure Storage where
  records : List Record
  users : List User
  stage_defs : List StageDef
  record_stages : List RecordStage
  next_record_id : Nat
  next_user_id : Nat
deriving DecidableEq, Repr

/-- Modelled from the spec: a row annotated by the Duplicate Detector
(§4.3): its fingerprint, the duplicate verdict and the cumulative
reasons. -/
structure AnnRow where
  row : ImportRow
  fp : Fingerprint
  dup : Bool
  reasons : List String
deriving DecidableEq, Repr

/-- Modelled from the spec: the Duplicate Detector's pass over the file
(§4.3).  `existing` holds the persisted fingerprints, `seen` the
fingerprints of earlier rows of the same file; an all-null fingerprint is
never flagged and never enters `seen`. -/
def detectGo (existing : List Fingerprint) :
    List Fingerprint → List ImportRow → List AnnRow
  | _, [] => []
  | seen, r :: rs =>
    let fp := fingerprintOf r
    if fp.isEmpty then
      { row := r, fp := fp, dup := false, reasons := [] } :: detectGo existing seen rs
    else
      let rIn := seen.contains fp
      let rEx := existing.contains fp
      { row := r, fp := fp, dup := rIn || rEx
        reasons := (if rIn then ["duplicate_in_file"] else []) ++
          (if rEx then ["duplicate_existing"] else []) } ::
        detectGo existing (fp :: seen) rs

/-- Modelled from the spec: duplicate detection over a whole file against
the persisted fingerprints (§4.3). -/
def detect (existing : List Fingerprint) (rows : List ImportRow) : List AnnRow :=
  detectGo existing [] rows

/-- Fingerprints of every persisted record. -/
def Storage.fps (st : Storage) : List Fingerprint :=
  st.records.map (·.fingerprint)

/-- Modelled from the spec: the fatal error taxonomy for a whole file
(§7): wrong / unreadable container, or missing required header set. -/
inductive FileError
  | unreadable
  | missing_headers
deriving DecidableEq, Repr

/-- Modelled from the spec: one physical row of the sheet body — either
unparseable-but-present (§4.4, §7) or parsed into a normalised row. -/
inductive CellRow
  | unparseable
  | parsed (r : ImportRow)
deriving DecidableEq, Repr

/-- Modelled from the spec: the uploaded container (§6): readability,
presence of the required header set, and the sheet body. -/
structure RawFile where
  readable : Bool
  headers_ok : Bool
  rows : List CellRow
deriving DecidableEq, Repr

/-- Modelled from the spec: opening the container and checking the
required headers; both failures are fatal (§4.4, §7). -/
def parseFile (f : RawFile) : Except FileError (List CellRow) :=
  if !f.readable then .error .unreadable
  else if !f.headers_ok then .error .missing_headers
  else .ok f.rows

/-- Modelled from the spec: the rows that survive normalisation — parsed
rows with content in at least one field (§4.1). -/
def goodRows (cells : List CellRow) : List ImportRow :=
  cells.filterMap fun c =>
    match c with
    | .unparseable => none
    | .parsed r => if r.hasContent then some r else none

/-- Modelled from the spec: the unparseable-but-present rows, counted
separately from duplicates (§4.4, §7). -/
def badCount (cells : List CellRow) : Nat :=
  (cells.filter fun c => match c with | .unparseable => true | .parsed _ => false).length

/-- Modelled from the spec: the aggregate preview output (§4.4, §6). -/
structure PreviewResult where
  total_rows : Nat
  duplicate_rows : Nat
  insertable_rows : Nat
  preview_rows : List AnnRow
deriving DecidableEq, Repr

/-- Modelled from the spec: the bounded preview sample size (§4.4). -/
def PREVIEW_LIMIT : Nat := 50

/-- Modelled from the spec: Preview over normalised rows (§4.4) —
read-only, aggregate counts plus the first 50 annotated rows. -/
def previewRows (rows : List ImportRow) (st : Storage) : PreviewResult :=
  let ann := detect st.fps rows
  { total_rows := ann.length
    duplicate_rows := (ann.filter (·.dup)).length
    insertable_rows := (ann.filter (fun a => !a.dup)).length
    preview_rows := ann.take PREVIEW_LIMIT }

/-- Modelled from the spec: Preview(file) (§4.4). -/
def previewFile (f : RawFile) (st : Storage) : Except FileError PreviewResult :=
  (parseFile f).map fun cells => previewRows (goodRows cells) st

/-- Modelled from the spec: the fixed set of terminal status tokens
(§4.2), held in normalised form. -/
def TERMINAL_STATUSES : List String := ["po received"]

/-- Modelled from the spec: classify the status-column text (§4.2):
no text means status NEW, a terminal token maps to itself with no
assignee, any other text becomes status ASSIGNED with the normalised
name as assignee hint. -/
def resolveStatus (txt : Option String) : String × Option String :=
  match normKey txt with
  | none => ("NEW", none)
  | some t => if t ∈ TERMINAL_STATUSES then (t, none) else ("ASSIGNED", some t)

/-- Modelled from the spec: look up a user by normalised full name
(§4.2). -/
def findUserByName (users : List User) (name : String) : Option User :=
  users.find? fun u => u.full_name = name

/-- Modelled from the spec: the distinct assignee names of a batch that
do not yet exist in storage — deduplicated in memory before any create
(§4.2, §5). -/
def newAssigneeNames (st : Storage) (rows : List ImportRow) : List String :=
  ((rows.filterMap fun r => (resolveStatus r.status_text).2).eraseDups).filter
    fun n => (findUserByName st.users n).isNone

/-- Modelled from the spec: create one ASSIGNEE-role account per new
name, before any Record is written (§4.2, §4.4). -/
def createAssignees (st : Storage) (names : List String) : Storage :=
  names.foldl
    (fun acc n =>
      { acc with
        users := acc.users ++ [{ id := acc.next_user_id, full_name := n, role := .ASSIGNEE }]
        next_user_id := acc.next_user_id + 1 })
    st

/-- Modelled from the spec: the currently active stage definitions
(§4.5). -/
def activeStageDefs (st : Storage) : List StageDef :=
  st.stage_defs.filter (·.is_active)

/-- A fresh, uncompleted stage-progress row (§4.5). -/
def mkStageRow (recId sId : Nat) : RecordStage :=
  { record_id := recId, stage_id := sId, is_completed := false
    completed_at := none, notes := none }

/-- Modelled from the spec: Stage Fanout on Record creation — one
uncompleted RecordStage per active StageDefinition (§4.5). -/
def fanoutStages (recId : Nat) (defs : List StageDef) : List RecordStage :=
  defs.map fun d => mkStageRow recId d.id

/-- Modelled from the spec: build the new Record for an insertable row
(§3, §4.4): fresh id, derived status/assignee, active soft-delete
state. -/
def mkRecord (users : List User) (recId : Nat) (r : ImportRow) : Record :=
  let sa := resolveStatus r.status_text
  { id := recId
    source_row := r.source_row
    fingerprint := fingerprintOf r
    city := r.city
    category_of_site := r.category_of_site
    customer_name := r.customer_name
    mobile_no := r.mobile_no
    client_email := r.client_email
    notes := none
    status := sa.1
    assignee_id := sa.2.bind fun n => (findUserByName users n).map (·.id)
    assignee_name_hint := sa.2
    email_alert_pending := false
    is_active := true
    deleted_by := none
    deleted_at := none }

/-- Modelled from the spec: create one Record from a row and fan out its
stage rows (§4.4, §4.5). -/
def insertRecord (st : Storage) (r : ImportRow) : Storage :=
  { st with
    records := st.records ++ [mkRecord st.users st.next_record_id r]
    record_stages := st.record_stages ++ fanoutStages st.next_record_id (activeStageDefs st)
    next_record_id := st.next_record_id + 1 }

/-- Modelled from the spec: the commit output counts (§4.4, §6), with
the separately counted unusable rows (§7). -/
structure CommitResult where
  imported : Nat
  created : Nat
  updated : Nat
  assignees_created : Nat
  skipped_duplicates : Nat
  skipped_bad : Nat
deriving DecidableEq, Repr

/-- Modelled from the spec: the insert-only commit over normalised rows
(§4.4): re-run duplicate detection, create assignees for the whole batch
first, then insert every non-duplicate row; duplicates are skipped and
counted. -/
def commitRowsInsertOnly (st : Storage) (rows : List ImportRow) :
    Storage × CommitResult :=
  let ann := detect st.fps rows
  let insertables := (ann.filter fun a => !a.dup).map (·.row)
  let dups := (ann.filter (·.dup)).length
  let names := newAssigneeNames st insertables
  let st1 := createAssignees st names
  let st2 := insertables.foldl insertRecord st1
  (st2,
    { imported := insertables.length, created := insertables.length, updated := 0
      assignees_created := names.length, skipped_duplicates := dups, skipped_bad := 0 })

/-- Modelled from the spec: CommitInsertOnly(file) (§4.4): a malformed
file fails atomically with no write; otherwise unusable rows are counted
separately and the batch proceeds. -/
def commitInsertOnly (f : RawFile) (st : Storage) :
    Storage × Except FileError CommitResult :=
  match parseFile f with
  | .error e => (st, .error e)
  | .ok cells =>
    let sr := commitRowsInsertOnly st (goodRows cells)
    (sr.1, .ok { sr.2 with skipped_bad := badCount cells })

/-- Modelled from the spec: merge of one overwrite field — a non-null
row value replaces, a null row value preserves the captured value
(§4.4). -/
def mergeField (fromRow old : Option String) : Option String :=
  match fromRow with
  | some v => some v
  | none => old

/-- Modelled from the spec: in-place update of a matching Record during
overwrite re-import (§4.4): business fields from the row,
status/assignee re-applied, id and soft-delete state preserved, and
client_email / customer_name / mobile_no / notes never nulled out. -/
def applyOverwrite (users : List User) (old : Record) (r : ImportRow) : Record :=
  let sa := resolveStatus r.status_text
  { old with
    source_row := r.source_row
    city := r.city
    category_of_site := r.category_of_site
    customer_name := mergeField r.customer_name old.customer_name
    mobile_no := mergeField r.mobile_no old.mobile_no
    client_email := mergeField r.client_email old.client_email
    status := sa.1
    assignee_id := sa.2.bind fun n => (findUserByName users n).map (·.id)
    assignee_name_hint := sa.2 }

/-- Modelled from the spec: one overwrite step (§4.4): a row whose
non-empty fingerprint matches an existing Record updates it in place,
any other row is created as in insert-only mode.  The flag reports
whether an update happened. -/
def overwriteRow (st : Storage) (r : ImportRow) : Storage × Bool :=
  let fp := fingerprintOf r
  if fp.isEmpty then (insertRecord st r, false)
  else
    match st.records.find? (fun rec => rec.fingerprint = fp) with
    | some _ =>
      ({ st with
          records := st.records.map fun rec =>
            if rec.fingerprint = fp then applyOverwrite st.users rec r else rec },
        true)
    | none => (insertRecord st r, false)

/-- Modelled from the spec: one fold step of the overwrite commit,
carrying the running updated-rows count (§4.4). -/
def overwriteStep (acc : Storage × Nat) (r : ImportRow) : Storage × Nat :=
  let sb := overwriteRow acc.1 r
  (sb.1, acc.2 + (if sb.2 then 1 else 0))

/-- Modelled from the spec: CommitOverwrite(file) (§4.4): assignees for
the whole batch are created first, then every surviving row either
updates its fingerprint match or creates a new Record. -/
def commitOverwrite (f : RawFile) (st : Storage) :
    Storage × Except FileError CommitResult :=
  match parseFile f with
  | .error e => (st, .error e)
  | .ok cells =>
    let rows := goodRows cells
    let names := newAssigneeNames st rows
    let st1 := createAssignees st names
    let stepped := rows.foldl overwriteStep (st1, 0)
    (stepped.1,
      .ok { imported := rows.length, created := rows.length - stepped.2
            updated := stepped.2, assignees_created := names.length
            skipped_duplicates := 0, skipped_bad := badCount cells })

/-- Modelled from the spec: number of stage-progress rows held for one
(Record, StageDefinition) pair (§3, §4.5). -/
def stageCount (st : Storage) (recId sId : Nat) : Nat :=
  st.record_stages.countP fun rs => rs.record_id == recId && rs.stage_id == sId

/-- Modelled from the spec: whether a Record lacks the stage-progress
row of one StageDefinition (§4.5). -/
def lacksStage (st : Storage) (recId sId : Nat) : Bool :=
  !(st.record_stages.any fun rs => rs.record_id == recId && rs.stage_id == sId)

/-- Modelled from the spec: the Stage Fanout backfill for one
StageDefinition — one uncompleted RecordStage for every currently-active
Record that lacks one (§4.5). -/
def backfillDef (st : Storage) (d : StageDef) : Storage :=
  { st with
    record_stages := st.record_stages ++
      ((st.records.filter fun rec => rec.is_active && lacksStage st rec.id d.id).map
        fun rec => mkStageRow rec.id d.id) }

/-- Modelled from the spec: StageDefinition creation followed by the
backfill (§4.5). -/
def createStageDef (st : Storage) (d : StageDef) : Storage :=
  backfillDef { st with stage_defs := st.stage_defs ++ [d] } d

/-- A JSON-ish value as seen by the error helper: the `detail` field of
an axios response body is either a string or something else
(`frontend/src/utils/errors.ts`). -/
inductive JsonVal
  | str (s : String)
  | other
deriving DecidableEq, Repr

/-- The inputs `getApiErrorMessage` distinguishes: an axios error
carrying an optional response `detail` and its message string, a plain
`Error`, or any other thrown value (`frontend/src/utils/errors.ts`). -/
inductive ErrInput
  | axios (detail : Option JsonVal) (message : String)
  | plainError (message : String)
  | other
deriving DecidableEq, Repr

/-- Embedded from `frontend/src/utils/errors.ts`: prefer a non-blank
string `detail` from the response body, then a non-blank error message,
then the fallback.  An axios error is also an `Error` instance with the
same message, so the trailing `instanceof Error` check of the source
collapses into the axios branch. -/
def getApiErrorMessage : ErrInput → String → String
  | .axios detail message, fallback =>
    match detail with
    | some (.str d) =>
      if strTrim d ≠ "" then d
      else if strTrim message ≠ "" then message else fallback
    | _ => if strTrim message ≠ "" then message else fallback
  | .plainError message, fallback =>
    if strTrim message ≠ "" then message else fallback
  | .other, fallback => fallback

/-- The usable response `detail`, when it is a string that is non-empty
after trimming. -/
def goodDetail : ErrInput → Option String
  | .axios (some (.str d)) _ => if strTrim d ≠ "" then some d else none
  | _ => none

/-- The usable error message, when the input is an error whose message
is non-empty after trimming. -/
def goodMessage : ErrInput → Option String
  | .axios _ m => if strTrim m ≠ "" then some m else none
  | .plainError m => if strTrim m ≠ "" then some m else none
  | .other => none

/-- Embedded from `frontend/src/pages/RecordsPage.tsx`: the column keys
of the records table. -/
inductive ColumnKey
  | source_row
  | sl_no
  | organization
  | short_name
  | custodian_organization
  | state
  | city
  | category_of_site
  | assignee
  | assignee_hint
  | customer_name
  | mobile_no
  | client_email
  | status
  | stage_progress
  | alert
  | notes
  | updated_at
deriving DecidableEq, Repr

/-- Embedded from `RecordsPage.tsx`: the keys of `COLUMN_OPTIONS` in
display order. -/
def allColumnKeys : List ColumnKey :=
  [.source_row, .sl_no, .organization, .short_name, .custodian_organization,
   .state, .city, .category_of_site, .assignee, .assignee_hint, .customer_name,
   .mobile_no, .client_email, .status, .stage_progress, .alert, .notes, .updated_at]

/-- Embedded from `RecordsPage.tsx`: `DEFAULT_COLUMNS`. -/
def DEFAULT_COLUMNS : List ColumnKey :=
  [.source_row, .organization, .state, .assignee, .customer_name,
   .mobile_no, .client_email, .status, .alert]

/-- The column-selection state of the records table:
`showAllColumns` and `selectedColumns` (`RecordsPage.tsx`). -/
structure ColState where
  showAllColumns : Bool
  selectedColumns : List ColumnKey
deriving DecidableEq, Repr

/-- Embedded from `RecordsPage.tsx` (`toggleColumn`): deselecting the
only remaining column is a no-op, deselecting otherwise filters it out,
selecting appends it. -/
def toggleColumn (c : ColumnKey) (st : ColState) : ColState :=
  { showAllColumns := false
    selectedColumns :=
      if st.selectedColumns.contains c then
        if st.selectedColumns.length = 1 then st.selectedColumns
        else st.selectedColumns.filter fun item => item != c
      else st.selectedColumns ++ [c] }

/-- Embedded from `RecordsPage.tsx` (`toggleAllColumns`). -/
def toggleAllColumns (checked : Bool) (_st : ColState) : ColState :=
  { showAllColumns := checked
    selectedColumns := if checked then allColumnKeys else DEFAULT_COLUMNS }

/-- One user interaction with the column picker. -/
inductive ColOp
  | toggle (c : ColumnKey)
  | toggleAll (checked : Bool)
deriving DecidableEq, Repr

/-- Apply one column-picker interaction. -/
def applyColOp (st : ColState) : ColOp → ColState
  | .toggle c => toggleColumn c st
  | .toggleAll b => toggleAllColumns b st

/-- Apply a sequence of column-picker interactions. -/
def applyColOps (ops : List ColOp) (st : ColState) : ColState :=
  ops.foldl applyColOp st

/-- The initial column-selection state of `RecordsPage`. -/
def initialColState : ColState :=
  { showAllColumns := false, selectedColumns := DEFAULT_COLUMNS }

/-- One entry of the `stage_updates` array sent by `saveDraft`
(`RecordsPage.tsx`). -/
structure StageUpdate where
  stage_id : Nat
  is_completed : Bool
  notes : Option String
deriving DecidableEq, Repr

/-- A value of the PATCH payload built by `saveDraft`. -/
inductive PValue
  | s (v : String)
  | optNat (v : Option Nat)
  | b (v : Bool)
  | stages (v : List StageUpdate)
deriving DecidableEq, Repr

/-- Per-stage checkbox state of the edit dialog (`RecordsPage.tsx`). -/
structure DraftStageState where
  is_completed : Bool
  notes : String
deriving DecidableEq, Repr

/-- The edit-dialog draft (`RecordsPage.tsx`): `assignee_id = none`
models the empty select value. -/
structure Draft where
  customer_name : String
  mobile_no : String
  client_email : String
  notes : String
  assignee_id : Option Nat
  email_alert_pending : Bool
  stage_states : List (Nat × DraftStageState)
deriving DecidableEq, Repr

/-- Lookup of `draft.stage_states[stage.id]`. -/
def lookupStageState (d : Draft) (sid : Nat) : Option DraftStageState :=
  (d.stage_states.find? fun p => p.1 == sid).map (·.2)

/-- Embedded from `RecordsPage.tsx` (`saveDraft`): the `stage_updates`
array — missing or falsy entries give `is_completed = false` and null
notes. -/
def stageUpdatesPayload (d : Draft) (stages : List StageDef) : List StageUpdate :=
  stages.map fun stage =>
    { stage_id := stage.id
      is_completed :=
        match lookupStageState d stage.id with
        | some ss => ss.is_completed
        | none => false
      notes :=
        match lookupStageState d stage.id with
        | some ss => if ss.notes = "" then none else some ss.notes
        | none => none }

/-- Embedded from `RecordsPage.tsx` (`saveDraft`): the PATCH payload as
an ordered field list, built by the three role-conditional blocks of the
source; `role = none` models an absent user. -/
def saveDraftPayload (role : Option String) (draft : Draft) (stages : List StageDef) :
    List (String × PValue) :=
  let p0 : List (String × PValue) := []
  let p1 :=
    if role = some "ASSIGNEE" then
      p0 ++ [("customer_name", .s draft.customer_name), ("mobile_no", .s draft.mobile_no),
             ("client_email", .s draft.client_email), ("notes", .s draft.notes)]
    else p0
  let p2 :=
    if role = some "SUPER_ADMIN" then
      p1 ++ [("customer_name", .s draft.customer_name), ("mobile_no", .s draft.mobile_no),
             ("client_email", .s draft.client_email), ("notes", .s draft.notes),
             ("assignee_id", .optNat draft.assignee_id),
             ("email_alert_pending", .b draft.email_alert_pending),
             ("stage_updates", .stages (stageUpdatesPayload draft stages))]
    else p1
  let p3 :=
    if role = some "EMAIL_TEAM" then
      p2 ++ [("notes", .s draft.notes),
             ("email_alert_pending", .b draft.email_alert_pending),
             ("stage_updates", .stages (stageUpdatesPayload draft stages))]
    else p2
  p3

theorem strTrim_ne_empty {s : String} (h : strTrim s ≠ "") : s ≠ "" := by
  intro hs
  exact h (by simp [hs, strTrim, isWsChar])

/-- C9: `getApiErrorMessage` returns the response body's `detail` field
when it is a string non-empty after trimming, otherwise the error's
message when that is non-empty after trimming, otherwise the fallback;
in particular the result is non-empty whenever the fallback is. -/
theorem getApiErrorMessage_spec (e : ErrInput) (fb : String) :
    (∀ d, goodDetail e = some d → getApiErrorMessage e fb = d)
    ∧ (goodDetail e = none → ∀ m, goodMessage e = some m → getApiErrorMessage e fb = m)
    ∧ (goodDetail e = none → goodMessage e = none → getApiErrorMessage e fb = fb)
    ∧ (fb ≠ "" → getApiErrorMessage e fb ≠ "") := by
  cases e with
  | axios detail message =>
    cases detail with
    | none =>
      by_cases hm : strTrim message = "" <;>
        simp_all [goodDetail, goodMessage, getApiErrorMessage] <;>
        exact fun _ => strTrim_ne_empty hm
    | some jv =>
      cases jv with
      | str d =>
        by_cases hd : strTrim d = ""
        · by_cases hm : strTrim message = "" <;>
            simp_all [goodDetail, goodMessage, getApiErrorMessage] <;>
            exact fun _ => strTrim_ne_empty hm
        · simp_all [goodDetail, goodMessage, getApiErrorMessage]
          exact fun _ => strTrim_ne_empty hd
      | other =>
        by_cases hm : strTrim message = "" <;>
          simp_all [goodDetail, goodMessage, getApiErrorMessage] <;>
          exact fun _ => strTrim_ne_empty hm
  | plainError message =>
    by_cases hm : strTrim message = "" <;>
      simp_all [goodDetail, goodMessage, getApiErrorMessage] <;>
      exact fun _ => strTrim_ne_empty hm
  | other =>
    simp [goodDetail, goodMessage, getApiErrorMessage]

theorem getApiErrorMessage_spec_witness :
    getApiErrorMessage (.axios (some (.str "  ")) "Network Error") "fallback msg"
      = "Network Error" :=
  (getApiErrorMessage_spec (.axios (some (.str "  ")) "Network Error") "fallback msg").2.1
    (by decide) "Network Error" (by decide)

/-- C8: the PATCH payload of `saveDraft` contains exactly the fixed field
set of the current role — ASSIGNEE patches the four contact fields,
EMAIL_TEAM patches notes / alert flag / stage updates, SUPER_ADMIN
patches the union, and any other (or absent) role produces an empty
payload. -/
theorem saveDraft_role_fields (draft : Draft) (stages : List StageDef) :
    ((saveDraftPayload (some "ASSIGNEE") draft stages).map Prod.fst =
      ["customer_name", "mobile_no", "client_email", "notes"])
    ∧ ((saveDraftPayload (some "SUPER_ADMIN") draft stages).map Prod.fst =
      ["customer_name", "mobile_no", "client_email", "notes", "assignee_id",
       "email_alert_pending", "stage_updates"])
    ∧ ((saveDraftPayload (some "EMAIL_TEAM") draft stages).map Prod.fst =
      ["notes", "email_alert_pending", "stage_updates"])
    ∧ (∀ role : Option String, role ≠ some "ASSIGNEE" → role ≠ some "SUPER_ADMIN" →
        role ≠ some "EMAIL_TEAM" → saveDraftPayload role draft stages = []) := by
  refine ⟨by simp [saveDraftPayload], by simp [saveDraftPayload], by simp [saveDraftPayload], ?_⟩
  intro role h1 h2 h3
  simp [saveDraftPayload, h1, h2, h3]

theorem saveDraft_role_fields_witness :
    saveDraftPayload (some "VIEWER")
      { customer_name := "c", mobile_no := "m", client_email := "e", notes := "n"
        assignee_id := none, email_alert_pending := false, stage_states := [] } [] = [] :=
  (saveDraft_role_fields _ []).2.2.2 (some "VIEWER") (by decide) (by decide) (by decide)

/-- The records-table column invariant: a non-empty, duplicate-free
selection. -/
def ColInv (st : ColState) : Prop :=
  st.selectedColumns ≠ [] ∧ st.selectedColumns.Nodup

theorem colInv_toggleColumn (c : ColumnKey) (st : ColState) (h : ColInv st) :
    ColInv (toggleColumn c st) := by
  obtain ⟨hne, hnd⟩ := h
  unfold toggleColumn ColInv
  by_cases hc : st.selectedColumns.contains c
  · by_cases hl : st.selectedColumns.length = 1
    · simp only [hc, hl, if_true]
      exact ⟨hne, hnd⟩
    · simp only [hc, hl, if_true, if_false]
      constructor
      · have hmem : ∃ x ∈ st.selectedColumns, (x != c) = true := by
          rcases hsel : st.selectedColumns with _ | ⟨a, rest⟩
          · exact absurd (hsel ▸ hc) (by simp)
          · rcases hrest : rest with _ | ⟨b, rest'⟩
            · exact absurd (by simp [hsel, hrest]) hl
            · rw [hsel, hrest] at hnd
              by_cases hac : a = c
              · refine ⟨b, by simp [hsel, hrest], ?_⟩
                have : a ∉ b :: rest' := (List.nodup_cons.mp hnd).1
                simp only [bne_iff_ne, ne_eq, ← hac]
                intro hbc
                exact this (hbc ▸ List.mem_cons_self b rest')
              · exact ⟨a, by simp [hsel], by simpa using hac⟩
        obtain ⟨x, hx, hxc⟩ := hmem
        exact List.ne_nil_of_mem (List.mem_filter.mpr ⟨hx, hxc⟩)
      · exact hnd.filter _
  · simp only [hc, if_false]
    refine ⟨by simp, ?_⟩
    have hcm : c ∉ st.selectedColumns := by
      intro hmem
      exact hc (List.elem_iff.mpr hmem)
    simpa [List.nodup_append] using ⟨hnd, hcm⟩

theorem colInv_toggleAllColumns (b : Bool) (st : ColState) :
    ColInv (toggleAllColumns b st) := by
  show ColInv { showAllColumns := b, selectedColumns := if b then allColumnKeys else DEFAULT_COLUMNS }
  cases b <;> exact ⟨by decide, by decide⟩

theorem colInv_applyColOps (ops : List ColOp) :
    ∀ st : ColState, ColInv st → ColInv (applyColOps ops st) := by
  induction ops with
  | nil => exact fun st h => h
  | cons op ops ih =>
    intro st h
    cases op with
    | toggle c => exact ih _ (colInv_toggleColumn c st h)
    | toggleAll b => exact ih _ (colInv_toggleAllColumns b st)

/-- C10: starting from the non-empty default column set, every sequence
of `toggleColumn` / `toggleAllColumns` interactions keeps at least one
selected column; toggling the only remaining selected column is a no-op,
and toggling an unselected column appends it. -/
theorem columns_never_empty (ops : List ColOp) (c : ColumnKey) (b : Bool)
    (sel : List ColumnKey) (hsel : sel.contains c = false) :
    1 ≤ (applyColOps ops initialColState).selectedColumns.length
    ∧ (toggleColumn c { showAllColumns := b, selectedColumns := [c] }).selectedColumns = [c]
    ∧ (toggleColumn c { showAllColumns := b, selectedColumns := sel }).selectedColumns
        = sel ++ [c] := by
  refine ⟨?_, by simp [toggleColumn],
    by simp only [toggleColumn, hsel, Bool.false_eq_true, if_false]⟩
  have h := colInv_applyColOps ops initialColState ⟨by decide, by decide⟩
  have := h.1
  cases hx : (applyColOps ops initialColState).selectedColumns with
  | nil => exact absurd hx this
  | cons y ys => simp

theorem columns_never_empty_witness :
    1 ≤ (applyColOps [.toggle .state, .toggle .city] initialColState).selectedColumns.length
    ∧ (toggleColumn .city { showAllColumns := false, selectedColumns := [.city] }).selectedColumns
        = [.city]
    ∧ (toggleColumn .city { showAllColumns := false, selectedColumns := [.state] }).selectedColumns
        = [.state, .city] :=
  columns_never_empty [.toggle .state, .toggle .city] .city false [.state] (by decide)

theorem createAssignees_eq (names : List String) (st : Storage) :
    ∃ u k, createAssignees st names = { st with users := u, next_user_id := k } := by
  induction names generalizing st with
  | nil => exact ⟨st.users, st.next_user_id, rfl⟩
  | cons n ns ih =>
    obtain ⟨u, k, hu⟩ := ih
      { st with
        users := st.users ++ [{ id := st.next_user_id, full_name := n, role := .ASSIGNEE }]
        next_user_id := st.next_user_id + 1 }
    exact ⟨u, k, hu⟩

theorem createAssignees_records (names : List String) (st : Storage) :
    (createAssignees st names).records = st.records := by
  obtain ⟨u, k, h⟩ := createAssignees_eq names st
  rw [h]

theorem createAssignees_record_stages (names : List String) (st : Storage) :
    (createAssignees st names).record_stages = st.record_stages := by
  obtain ⟨u, k, h⟩ := createAssignees_eq names st
  rw [h]

theorem createAssignees_stage_defs (names : List String) (st : Storage) :
    (createAssignees st names).stage_defs = st.stage_defs := by
  obtain ⟨u, k, h⟩ := createAssignees_eq names st
  rw [h]

theorem createAssignees_next_record_id (names : List String) (st : Storage) :
    (createAssignees st names).next_record_id = st.next_record_id := by
  obtain ⟨u, k, h⟩ := createAssignees_eq names st
  rw [h]

theorem foldl_insertRecord_records (rows : List ImportRow) :
    ∀ st : Storage, ∃ tail, (rows.foldl insertRecord st).records = st.records ++ tail := by
  induction rows with
  | nil => exact fun st => ⟨[], by simp⟩
  | cons r rs ih =>
    intro st
    obtain ⟨tail, htail⟩ := ih (insertRecord st r)
    refine ⟨mkRecord st.users st.next_record_id r :: tail, ?_⟩
    have hstep : (r :: rs).foldl insertRecord st = rs.foldl insertRecord (insertRecord st r) := rfl
    rw [hstep, htail]
    show (st.records ++ [mkRecord st.users st.next_record_id r]) ++ tail = _
    simp

/-- C3: the insert-only commit only appends new Records — the persisted
record list before the call is an unchanged prefix of the list after it,
so every pre-existing Record survives with all its fields intact. -/
theorem insertOnly_never_modifies (f : RawFile) (st : Storage) :
    ∃ tail, (commitInsertOnly f st).1.records = st.records ++ tail
      ∧ ∀ r ∈ st.records, r ∈ (commitInsertOnly f st).1.records := by
  have key : ∃ tail, (commitInsertOnly f st).1.records = st.records ++ tail := by
    unfold commitInsertOnly
    cases hp : parseFile f with
    | error e => exact ⟨[], by simp⟩
    | ok cells =>
      simp only [commitRowsInsertOnly]
      obtain ⟨tail, htail⟩ :=
        foldl_insertRecord_records
          (((detect st.fps (goodRows cells)).filter fun a => !a.dup).map (·.row))
          (createAssignees st
            (newAssigneeNames st
              (((detect st.fps (goodRows cells)).filter fun a => !a.dup).map (·.row))))
      exact ⟨tail, by simp only [htail, createAssignees_records]⟩
  obtain ⟨tail, htail⟩ := key
  exact ⟨tail, htail, fun r hr => htail ▸ List.mem_append_left tail hr⟩

theorem detectGo_length (ex : List Fingerprint) (rows : List ImportRow) :
    ∀ seen, (detectGo ex seen rows).length = rows.length := by
  induction rows with
  | nil => intro seen; rfl
  | cons r rs ih =>
    intro seen
    unfold detectGo
    cases hemp : (fingerprintOf r).isEmpty <;> simp [hemp, ih]

theorem detectGo_map_row (ex : List Fingerprint) (rows : List ImportRow) :
    ∀ seen, (detectGo ex seen rows).map (·.row) = rows := by
  induction rows with
  | nil => intro seen; rfl
  | cons r rs ih =>
    intro seen
    unfold detectGo
    cases hemp : (fingerprintOf r).isEmpty <;> simp [hemp, ih]

theorem detectGo_empty_fp (ex : List Fingerprint) (rows : List ImportRow) :
    ∀ seen, ∀ a ∈ detectGo ex seen rows, a.fp.isEmpty = true →
      a.dup = false ∧ a.reasons = [] := by
  induction rows with
  | nil => intro seen a ha; exact absurd ha (by simp [detectGo])
  | cons r rs ih =>
    intro seen a ha hfp
    unfold detectGo at ha
    cases hemp : (fingerprintOf r).isEmpty with
    | true =>
      simp only [hemp, if_true] at ha
      rcases List.mem_cons.mp ha with rfl | htail
      · exact ⟨rfl, rfl⟩
      · exact ih seen a htail hfp
    | false =>
      simp only [hemp, Bool.false_eq_true, if_false] at ha
      rcases List.mem_cons.mp ha with rfl | htail
      · simp only at hfp
        exact absurd hfp (by simp [hemp])
      · exact ih _ a htail hfp

theorem filter_length_partition {α : Type} (p : α → Bool) (l : List α) :
    (l.filter fun a => !p a).length + (l.filter p).length = l.length := by
  induction l with
  | nil => rfl
  | cons x xs ih => cases hx : p x <;> simp [List.filter_cons, hx, ← ih] <;> omega

/-- C6: a row whose fingerprint is entirely null is never reported as a
duplicate (of another in-file row or of any persisted record, including
all-empty persisted fingerprints), carries no duplicate reason, and is
counted in `total_rows` and — being non-duplicate — in
`insertable_rows`. -/
theorem allEmptyKey_rows_insertable (st : Storage) (rows : List ImportRow) (a : AnnRow)
    (ha : a ∈ detect st.fps rows) (hfp : a.fp.isEmpty = true) :
    a.dup = false ∧ a.reasons = []
    ∧ (previewRows rows st).total_rows = rows.length
    ∧ (previewRows rows st).insertable_rows + (previewRows rows st).duplicate_rows
        = rows.length := by
  obtain ⟨hd, hr⟩ := detectGo_empty_fp st.fps rows [] a ha hfp
  refine ⟨hd, hr, ?_, ?_⟩
  · simp [previewRows, detect, detectGo_length]
  · simp only [previewRows]
    rw [filter_length_partition (·.dup) (detect st.fps rows)]
    exact detectGo_length st.fps rows []

/-- An empty persistence state. -/
def emptyStorage : Storage :=
  { records := [], users := [], stage_defs := [], record_stages := []
    next_record_id := 1, next_user_id := 1 }

/-- A row with content but all eight key fields null. -/
def rowEmptyA : ImportRow :=
  { source_row := 1, sl_no := none, custodian_code := none, unlo_code := none
    short_name := none, custodian_organization := none, state := none
    site_address := none, pincode := none, city := some "plot 5"
    category_of_site := none, customer_name := none, mobile_no := none
    client_email := none, status_text := none }

/-- A second row with content but all eight key fields null. -/
def rowEmptyB : ImportRow :=
  { rowEmptyA with source_row := 2, city := some "plot 5" }

/-- The all-null fingerprint. -/
def emptyFp : Fingerprint :=
  { sl_no := none, custodian_code := none, unlo_code := none, short_name := none
    custodian_organization := none, state := none, site_address := none, pincode := none }

/-- The detector's annotation of `rowEmptyB` inside the two-row file. -/
def annEmptyB : AnnRow :=
  { row := rowEmptyB, fp := emptyFp, dup := false, reasons := [] }

theorem allEmptyKey_rows_insertable_witness :
    annEmptyB.dup = false ∧ annEmptyB.reasons = []
    ∧ (previewRows [rowEmptyA, rowEmptyB] emptyStorage).total_rows = 2
    ∧ (previewRows [rowEmptyA, rowEmptyB] emptyStorage).insertable_rows
        + (previewRows [rowEmptyA, rowEmptyB] emptyStorage).duplicate_rows = 2 :=
  allEmptyKey_rows_insertable emptyStorage [rowEmptyA, rowEmptyB] annEmptyB
    (by decide) (by decide)

theorem goodRows_skip_unparseable (xs ys : List CellRow) :
    goodRows (xs ++ CellRow.unparseable :: ys) = goodRows (xs ++ ys) := by
  simp [goodRows, List.filterMap_append, List.filterMap_cons]

theorem badCount_unparseable (xs ys : List CellRow) :
    badCount (xs ++ CellRow.unparseable :: ys) = badCount (xs ++ ys) + 1 := by
  simp [badCount, List.filter_append, List.filter_cons]
  omega

theorem parseFile_malformed (f : RawFile)
    (hbad : f.readable = false ∨ f.headers_ok = false) :
    ∃ e, parseFile f = .error e := by
  rcases hbad with h | h
  · exact ⟨.unreadable, by simp [parseFile, h]⟩
  · cases hr : f.readable
    · exact ⟨.unreadable, by simp [parseFile, hr]⟩
    · exact ⟨.missing_headers, by simp [parseFile, hr, h]⟩

/-- C7: a malformed file (unreadable container or missing header set)
fails both commit operations as a whole with the storage state untouched,
while an unparseable-but-present row is merely dropped from the batch —
the resulting state matches the state produced by the same file without
that row, and the row is counted in the separate `skipped_bad` counter,
not among the duplicates. -/
theorem commit_failure_semantics (f : RawFile) (st : Storage) (xs ys : List CellRow)
    (hbad : f.readable = false ∨ f.headers_ok = false) :
    ((commitInsertOnly f st).1 = st ∧ ∃ e, (commitInsertOnly f st).2 = .error e)
    ∧ ((commitOverwrite f st).1 = st ∧ ∃ e, (commitOverwrite f st).2 = .error e)
    ∧ ((commitInsertOnly { readable := true, headers_ok := true, rows := xs ++ CellRow.unparseable :: ys } st).1
        = (commitInsertOnly { readable := true, headers_ok := true, rows := xs ++ ys } st).1
      ∧ ∃ res, (commitInsertOnly { readable := true, headers_ok := true, rows := xs ++ ys } st).2 = .ok res
          ∧ (commitInsertOnly { readable := true, headers_ok := true, rows := xs ++ CellRow.unparseable :: ys } st).2
              = .ok { res with skipped_bad := res.skipped_bad + 1 }) := by
  obtain ⟨e, he⟩ := parseFile_malformed f hbad
  have hok1 : parseFile { readable := true, headers_ok := true, rows := xs ++ CellRow.unparseable :: ys } =
      .ok (xs ++ CellRow.unparseable :: ys) := by simp [parseFile]
  have hok2 : parseFile { readable := true, headers_ok := true, rows := xs ++ ys } =
      .ok (xs ++ ys) := by simp [parseFile]
  refine ⟨⟨?_, e, ?_⟩, ⟨?_, e, ?_⟩, ?_, ?_⟩
  · simp [commitInsertOnly, he]
  · simp [commitInsertOnly, he]
  · simp [commitOverwrite, he]
  · simp [commitOverwrite, he]
  · simp [commitInsertOnly, hok1, hok2, goodRows_skip_unparseable]
  · refine ⟨{ (commitRowsInsertOnly st (goodRows (xs ++ ys))).2 with
        skipped_bad := badCount (xs ++ ys) }, ?_, ?_⟩
    · simp [commitInsertOnly, hok2]
    · simp [commitInsertOnly, hok1, goodRows_skip_unparseable, badCount_unparseable]

/-- A file whose container cannot be read. -/
def unreadableFile : RawFile := { readable := false, headers_ok := true, rows := [] }

/-- A readable file containing one good row followed by one
unparseable row. -/
def fileWithBadRow : RawFile :=
  { readable := true, headers_ok := true
    rows := [.parsed rowEmptyA] ++ CellRow.unparseable :: [] }

/-- The same file with the unparseable row removed. -/
def fileWithoutBadRow : RawFile :=
  { readable := true, headers_ok := true, rows := [.parsed rowEmptyA] ++ [] }

theorem commit_failure_semantics_witness :
    ((commitInsertOnly unreadableFile emptyStorage).1 = emptyStorage
      ∧ ∃ e, (commitInsertOnly unreadableFile emptyStorage).2 = .error e)
    ∧ ((commitOverwrite unreadableFile emptyStorage).1 = emptyStorage
      ∧ ∃ e, (commitOverwrite unreadableFile emptyStorage).2 = .error e)
    ∧ ((commitInsertOnly fileWithBadRow emptyStorage).1
        = (commitInsertOnly fileWithoutBadRow emptyStorage).1
      ∧ ∃ res, (commitInsertOnly fileWithoutBadRow emptyStorage).2 = .ok res
          ∧ (commitInsertOnly fileWithBadRow emptyStorage).2
              = .ok { res with skipped_bad := res.skipped_bad + 1 }) :=
  commit_failure_semantics unreadableFile emptyStorage [.parsed rowEmptyA] [] (Or.inl rfl)

/-- C4: in an overwrite commit, a row whose (non-empty) fingerprint
matches an existing Record updates that Record in place: id and
soft-delete state are preserved, notes are kept, and each of
client_email / customer_name / mobile_no keeps its previous value when
the row's column is null and takes the row's value when it is
non-null. -/
theorem overwrite_preserves_captured (st : Storage) (r : ImportRow) (i : Nat) (R : Record)
    (hR : st.records[i]? = some R)
    (hfp : R.fingerprint = fingerprintOf r)
    (hne : (fingerprintOf r).isEmpty = false)
    (hc : r.hasContent = true) :
    ∃ R', (commitOverwrite { readable := true, headers_ok := true, rows := [.parsed r] }
          st).1.records[i]? = some R'
      ∧ R'.id = R.id ∧ R'.is_active = R.is_active ∧ R'.deleted_by = R.deleted_by
      ∧ R'.deleted_at = R.deleted_at ∧ R'.notes = R.notes
      ∧ (r.client_email = none → R'.client_email = R.client_email)
      ∧ (∀ v, r.client_email = some v → R'.client_email = some v)
      ∧ (r.customer_name = none → R'.customer_name = R.customer_name)
      ∧ (∀ v, r.customer_name = some v → R'.customer_name = some v)
      ∧ (r.mobile_no = none → R'.mobile_no = R.mobile_no)
      ∧ (∀ v, r.mobile_no = some v → R'.mobile_no = some v) := by
  have hrows : goodRows [CellRow.parsed r] = [r] := by simp [goodRows, hc]
  have hparse : parseFile { readable := true, headers_ok := true, rows := [.parsed r] }
      = .ok [.parsed r] := by simp [parseFile]
  have hrecs : (createAssignees st (newAssigneeNames st [r])).records = st.records :=
    createAssignees_records _ st
  have hsome : ((createAssignees st (newAssigneeNames st [r])).records.find?
      fun rec => rec.fingerprint = fingerprintOf r).isSome := by
    rw [List.find?_isSome]
    exact ⟨R, hrecs ▸ List.getElem?_mem hR, by simp [hfp]⟩
  obtain ⟨w, hw⟩ := Option.isSome_iff_exists.mp hsome
  refine ⟨applyOverwrite (createAssignees st (newAssigneeNames st [r])).users R r, ?_, ?_⟩
  · simp only [commitOverwrite, hparse, hrows, List.foldl, overwriteStep, overwriteRow,
      hne, Bool.false_eq_true, if_false, hw]
    rw [hrecs, List.getElem?_map, hR]
    simp [hfp]
  · refine ⟨rfl, rfl, rfl, rfl, rfl, ?_, ?_, ?_, ?_, ?_, ?_⟩ <;>
      simp only [applyOverwrite, mergeField]
    · intro h; rw [h]
    · intro v h; rw [h]
    · intro h; rw [h]
    · intro v h; rw [h]
    · intro h; rw [h]
    · intro v h; rw [h]

/-- A record created from `rowPlain`. -/
def recPlain : Record := mkRecord [] 1 rowPlain

/-- A one-record storage state for exercising the overwrite commit. -/
def storageOne : Storage :=
  { records := [recPlain], users := [], stage_defs := [], record_stages := []
    next_record_id := 2, next_user_id := 1 }

/-- A file holding the case/whitespace variant of `rowPlain`. -/
def overwriteFileVariant : RawFile :=
  { readable := true, headers_ok := true, rows := [.parsed rowVariant] }

theorem overwrite_preserves_captured_witness :
    ∃ R', (commitOverwrite overwriteFileVariant storageOne).1.records[0]? = some R'
      ∧ R'.id = recPlain.id ∧ R'.is_active = recPlain.is_active
      ∧ R'.deleted_by = recPlain.deleted_by
      ∧ R'.deleted_at = recPlain.deleted_at ∧ R'.notes = recPlain.notes
      ∧ (rowVariant.client_email = none → R'.client_email = recPlain.client_email)
      ∧ (∀ v, rowVariant.client_email = some v → R'.client_email = some v)
      ∧ (rowVariant.customer_name = none → R'.customer_name = recPlain.customer_name)
      ∧ (∀ v, rowVariant.customer_name = some v → R'.customer_name = some v)
      ∧ (rowVariant.mobile_no = none → R'.mobile_no = recPlain.mobile_no)
      ∧ (∀ v, rowVariant.mobile_no = some v → R'.mobile_no = some v) :=
  overwrite_preserves_captured storageOne rowVariant 0 recPlain (by decide)
    (by decide) (by decide) (by decide)

theorem detectGo_all_dup (ex : List Fingerprint) (rows : List ImportRow)
    (h : ∀ r ∈ rows, (fingerprintOf r).isEmpty = false ∧ fingerprintOf r ∈ ex) :
    ∀ seen, ∀ a ∈ detectGo ex seen rows, a.dup = true := by
  induction rows with
  | nil => intro seen a ha; exact absurd ha (by simp [detectGo])
  | cons r rs ih =>
    intro seen a ha
    obtain ⟨hemp, hmem⟩ := h r (List.mem_cons_self r rs)
    have hcont : ex.contains (fingerprintOf r) = true := List.elem_iff.mpr hmem
    unfold detectGo at ha
    simp only [hemp, Bool.false_eq_true, if_false, hcont] at ha
    rcases List.mem_cons.mp ha with rfl | htail
    · simp
    · exact ih (fun x hx => h x (List.mem_cons_of_mem r hx)) _ a htail

theorem parseFile_ok_rows (f : RawFile) (cells : List CellRow)
    (h : parseFile f = .ok cells) : cells = f.rows := by
  unfold parseFile at h
  split_ifs at h
  cases h
  rfl

theorem foldl_insertRecord_fps (rows : List ImportRow) :
    ∀ st : Storage, (rows.foldl insertRecord st).fps = st.fps ++ rows.map fingerprintOf := by
  induction rows with
  | nil => intro st; simp
  | cons r rs ih =>
    intro st
    have hstep : (r :: rs).foldl insertRecord st = rs.foldl insertRecord (insertRecord st r) := rfl
    rw [hstep, ih]
    have : (insertRecord st r).fps = st.fps ++ [fingerprintOf r] := by
      show ((st.records ++ [mkRecord st.users st.next_record_id r]).map (·.fingerprint)) = _
      simp [Storage.fps, mkRecord]
    rw [this]
    simp

theorem commitRows_no_dups (st : Storage) (rows : List ImportRow)
    (hnd : ∀ a ∈ detect st.fps rows, a.dup = false) :
    commitRowsInsertOnly st rows =
      (rows.foldl insertRecord (createAssignees st (newAssigneeNames st rows)),
       { imported := rows.length, created := rows.length, updated := 0
         assignees_created := (newAssigneeNames st rows).length
         skipped_duplicates := 0, skipped_bad := 0 }) := by
  have hfilter : (detect st.fps rows).filter (fun a => !a.dup) = detect st.fps rows :=
    List.filter_eq_self.mpr fun a ha => by simp [hnd a ha]
  have hmap : ((detect st.fps rows).filter (fun a => !a.dup)).map (·.row) = rows := by
    rw [hfilter]; exact detectGo_map_row _ _ _
  have hdups : (detect st.fps rows).filter (·.dup) = [] :=
    List.filter_eq_nil_iff.mpr fun a ha => by simp [hnd a ha]
  simp only [commitRowsInsertOnly, hmap, hdups, List.length_nil]

theorem commitRows_all_dup (st : Storage) (rows : List ImportRow)
    (hd : ∀ a ∈ detect st.fps rows, a.dup = true) :
    commitRowsInsertOnly st rows =
      (st, { imported := 0, created := 0, updated := 0, assignees_created := 0
             skipped_duplicates := rows.length, skipped_bad := 0 }) := by
  have hfilter : (detect st.fps rows).filter (fun a => !a.dup) = [] :=
    List.filter_eq_nil_iff.mpr fun a ha => by simp [hd a ha]
  have hdups : (detect st.fps rows).filter (·.dup) = detect st.fps rows :=
    List.filter_eq_self.mpr hd
  simp only [commitRowsInsertOnly, hfilter, hdups, List.map_nil, List.length_nil,
    List.foldl_nil]
  rw [detect, detectGo_length]
  rfl

/-- C1 (amended): if the file parses, every surviving row has at least
one non-null key field, and the pre-commit Preview reports zero
duplicate rows, then a second CommitInsertOnly run creates zero new
Records and reports every row of the file as a skipped duplicate —
a count equal to the original preview's `insertable_rows`. -/
theorem insertOnly_idempotent (f : RawFile) (st : Storage) (pv : PreviewResult)
    (hpv : previewFile f st = .ok pv)
    (hkeys : ∀ r ∈ goodRows f.rows, (fingerprintOf r).isEmpty = false)
    (hdup : pv.duplicate_rows = 0) :
    (commitInsertOnly f (commitInsertOnly f st).1).1.records
        = (commitInsertOnly f st).1.records
    ∧ ∃ res2, (commitInsertOnly f (commitInsertOnly f st).1).2 = .ok res2
        ∧ res2.skipped_duplicates = pv.insertable_rows := by
  cases hp : parseFile f with
  | error e =>
    rw [previewFile, hp] at hpv
    exact absurd hpv (by simp [Except.map])
  | ok cells =>
    have hcells := parseFile_ok_rows f cells hp
    subst hcells
    have hpv' : pv = previewRows (goodRows f.rows) st := by
      rw [previewFile, hp] at hpv
      simp only [Except.map, Except.ok.injEq] at hpv
      exact hpv.symm
    have hann1 : ∀ a ∈ detect st.fps (goodRows f.rows), a.dup = false := by
      have hlen : ((detect st.fps (goodRows f.rows)).filter (·.dup)).length = 0 := by
        have hpd : pv.duplicate_rows
            = ((detect st.fps (goodRows f.rows)).filter (·.dup)).length := by
          rw [hpv']
          rfl
        rw [hpd] at hdup
        exact hdup
      intro a ha
      have := List.filter_eq_nil_iff.mp (List.length_eq_zero.mp hlen) a ha
      simpa using this
    have hrun1 := commitRows_no_dups st (goodRows f.rows) hann1
    have hst1 : (commitInsertOnly f st).1
        = (goodRows f.rows).foldl insertRecord
            (createAssignees st (newAssigneeNames st (goodRows f.rows))) := by
      simp only [commitInsertOnly, hp, hrun1]
    have hfps1 : (commitInsertOnly f st).1.fps
        = st.fps ++ (goodRows f.rows).map fingerprintOf := by
      rw [hst1, foldl_insertRecord_fps]
      have : (createAssignees st (newAssigneeNames st (goodRows f.rows))).fps = st.fps := by
        show ((createAssignees st (newAssigneeNames st (goodRows f.rows))).records.map
          (·.fingerprint)) = _
        rw [createAssignees_records]
        rfl
      rw [this]
    have hins : pv.insertable_rows = (goodRows f.rows).length := by
      rw [hpv']
      show ((detect st.fps (goodRows f.rows)).filter fun a => !a.dup).length = _
      have hfilter : (detect st.fps (goodRows f.rows)).filter (fun a => !a.dup)
          = detect st.fps (goodRows f.rows) :=
        List.filter_eq_self.mpr fun a ha => by simp [hann1 a ha]
      rw [hfilter, detect, detectGo_length]
    set st1 := (commitInsertOnly f st).1 with hst1d
    have hann2 : ∀ a ∈ detect st1.fps (goodRows f.rows), a.dup = true := by
      apply detectGo_all_dup
      intro r hr
      refine ⟨hkeys r hr, ?_⟩
      rw [hfps1]
      exact List.mem_append_right _ (List.mem_map_of_mem _ hr)
    have hrun2 := commitRows_all_dup st1 (goodRows f.rows) hann2
    refine ⟨?_, ?_⟩
    · simp only [commitInsertOnly, hp, hrun2]
    · refine ⟨{ imported := 0, created := 0, updated := 0, assignees_created := 0,
                skipped_duplicates := (goodRows f.rows).length,
                skipped_bad := badCount f.rows }, ?_, ?_⟩
      · simp only [commitInsertOnly, hp, hrun2]
      · rw [hins]

/-- A clean one-row file for the idempotence witness. -/
def idemFile : RawFile := { readable := true, headers_ok := true, rows := [.parsed rowPlain] }

/-- Its pre-commit preview over the empty storage. -/
def idemPv : PreviewResult := previewRows (goodRows idemFile.rows) emptyStorage

theorem insertOnly_idempotent_witness :
    (commitInsertOnly idemFile (commitInsertOnly idemFile emptyStorage).1).1.records
        = (commitInsertOnly idemFile emptyStorage).1.records
    ∧ ∃ res2, (commitInsertOnly idemFile (commitInsertOnly idemFile emptyStorage).1).2
          = .ok res2
        ∧ res2.skipped_duplicates = idemPv.insertable_rows :=
  insertOnly_idempotent idemFile emptyStorage idemPv rfl (by decide) (by decide)

/-- A file whose single row has content but an all-null composite key. -/
def fileEmptyKeys : RawFile :=
  { readable := true, headers_ok := true, rows := [.parsed rowEmptyA] }

/-- A file holding two case/whitespace variants of the same row. -/
def fileDupPair : RawFile :=
  { readable := true, headers_ok := true, rows := [.parsed rowPlain, .parsed rowVariant] }

/-- C1 fails as stated: a second CommitInsertOnly of a file with an
all-null-key row creates a new Record again, and for a file containing
an intra-file duplicate the second run's `skipped_duplicates` (2)
differs from the pre-commit preview's `insertable_rows` (1). -/
theorem insertOnly_idempotent_cex :
    ((commitInsertOnly fileEmptyKeys
          (commitInsertOnly fileEmptyKeys emptyStorage).1).1.records.length
        ≠ (commitInsertOnly fileEmptyKeys emptyStorage).1.records.length)
    ∧ (((commitInsertOnly fileDupPair
            (commitInsertOnly fileDupPair emptyStorage).1).2.toOption.map
          (·.skipped_duplicates))
        ≠ ((previewFile fileDupPair emptyStorage).toOption.map (·.insertable_rows))) := by
  decide

/-- The identity key of a stage-progress row. -/
def rsKey (rs : RecordStage) : Nat × Nat := (rs.record_id, rs.stage_id)

/-- Storage well-formedness: distinct record ids, distinct stage
definition ids, the id allocator dominates every stored id, and at most
one stage-progress row per (record, stage) pair. -/
def WF (st : Storage) : Prop :=
  (st.records.map (·.id)).Nodup
  ∧ (st.stage_defs.map (·.id)).Nodup
  ∧ (∀ rec ∈ st.records, rec.id < st.next_record_id)
  ∧ (∀ rs ∈ st.record_stages, rs.record_id < st.next_record_id)
  ∧ (st.record_stages.map rsKey).Nodup

/-- The spec's RecordStage invariant (§3, §4.5): every active Record has
exactly one RecordStage per active StageDefinition. -/
def StageInv (st : Storage) : Prop :=
  ∀ rec ∈ st.records, rec.is_active = true →
    ∀ d ∈ st.stage_defs, d.is_active = true → stageCount st rec.id d.id = 1

theorem countP_key_eq_one {α β : Type} [BEq β] [LawfulBEq β] (f : α → β)
    (l : List α) (a : α) (hnd : (l.map f).Nodup) (ha : a ∈ l) :
    l.countP (fun x => f x == f a) = 1 := by
  induction l with
  | nil => cases ha
  | cons x xs ih =>
    rw [List.map_cons, List.nodup_cons] at hnd
    rcases List.mem_cons.mp ha with rfl | hmem
    · have hz : xs.countP (fun y => f y == f a) = 0 :=
        List.countP_eq_zero.mpr fun y hy => by
          simp only [beq_iff_eq]
          intro he
          exact hnd.1 (he ▸ List.mem_map_of_mem f hy)
      rw [List.countP_cons, hz]
      simp
    · have hne : (f x == f a) = false := by
        rw [beq_eq_false_iff_ne]
        intro he
        exact hnd.1 (he ▸ List.mem_map_of_mem f hmem)
      rw [List.countP_cons, ih hnd.2 hmem, hne]
      simp

theorem countP_key_le_one {α β : Type} [BEq β] [LawfulBEq β] (f : α → β) (k : β)
    (l : List α) (hnd : (l.map f).Nodup) :
    l.countP (fun x => f x == k) ≤ 1 := by
  induction l with
  | nil => rw [List.countP_nil]; exact Nat.zero_le 1
  | cons x xs ih =>
    rw [List.map_cons, List.nodup_cons] at hnd
    rw [List.countP_cons]
    cases hp : (f x == k) with
    | false => simpa using ih hnd.2
    | true =>
      have hk : f x = k := beq_iff_eq.mp hp
      have hz : xs.countP (fun y => f y == k) = 0 :=
        List.countP_eq_zero.mpr fun y hy => by
          simp only [beq_iff_eq]
          intro he
          exact hnd.1 ((hk ▸ he : f y = f x) ▸ List.mem_map_of_mem f hy)
      simp [hz]

theorem stageCount_insertRecord_ne (st : Storage) (r : ImportRow) (recId sId : Nat)
    (hne : recId ≠ st.next_record_id) :
    stageCount (insertRecord st r) recId sId = stageCount st recId sId := by
  show (st.record_stages ++ fanoutStages st.next_record_id (activeStageDefs st)).countP _
      = st.record_stages.countP _
  rw [List.countP_append]
  have hz : (fanoutStages st.next_record_id (activeStageDefs st)).countP
      (fun rs => rs.record_id == recId && rs.stage_id == sId) = 0 := by
    apply List.countP_eq_zero.mpr
    intro rs hrs
    obtain ⟨d, _, rfl⟩ := List.mem_map.mp hrs
    simp only [Bool.and_eq_true, beq_iff_eq]
    rintro ⟨h1, -⟩
    exact hne h1.symm
  rw [hz]
  omega

theorem stageCount_insertRecord_new (st : Storage) (r : ImportRow) (d : StageDef)
    (hd : d ∈ activeStageDefs st)
    (hnd : (st.stage_defs.map (·.id)).Nodup)
    (hrs : ∀ rs ∈ st.record_stages, rs.record_id < st.next_record_id) :
    stageCount (insertRecord st r) st.next_record_id d.id = 1 := by
  show (st.record_stages ++ fanoutStages st.next_record_id (activeStageDefs st)).countP _ = 1
  rw [List.countP_append]
  have hz : st.record_stages.countP
      (fun rs => rs.record_id == st.next_record_id && rs.stage_id == d.id) = 0 := by
    apply List.countP_eq_zero.mpr
    intro rs hmem
    simp only [Bool.and_eq_true, beq_iff_eq]
    rintro ⟨h1, -⟩
    exact absurd h1 (Nat.ne_of_lt (hrs rs hmem))
  have hone : (fanoutStages st.next_record_id (activeStageDefs st)).countP
      (fun rs => rs.record_id == st.next_record_id && rs.stage_id == d.id) = 1 := by
    unfold fanoutStages
    rw [List.countP_map]
    have hcongr : ((activeStageDefs st).countP fun d' =>
          st.next_record_id == st.next_record_id && d'.id == d.id)
        = (activeStageDefs st).countP fun d' => d'.id == d.id :=
      List.countP_congr fun d' _ => by simp
    show ((activeStageDefs st).countP fun d' =>
        st.next_record_id == st.next_record_id && d'.id == d.id) = 1
    rw [hcongr]
    apply countP_key_eq_one (·.id) (activeStageDefs st) d ?_ hd
    exact ((List.filter_sublist st.stage_defs).map (·.id)).nodup hnd
  rw [hz, hone]

theorem WF_insertRecord (st : Storage) (r : ImportRow) (h : WF st) :
    WF (insertRecord st r) := by
  obtain ⟨hrinodup, hdinodup, hrlt, hrslt, hkeys⟩ := h
  refine ⟨?_, hdinodup, ?_, ?_, ?_⟩
  · show ((st.records ++ [mkRecord st.users st.next_record_id r]).map (·.id)).Nodup
    rw [List.map_append]
    rw [List.nodup_append]
    refine ⟨hrinodup, List.nodup_singleton _, ?_⟩
    intro x hx hy
    simp only [mkRecord, List.map_cons, List.map_nil, List.mem_singleton] at hy
    obtain ⟨rec, hrec, rfl⟩ := List.mem_map.mp hx
    exact absurd hy (Nat.ne_of_lt (hrlt rec hrec))
  · intro rec hrec
    show rec.id < st.next_record_id + 1
    rcases List.mem_append.mp hrec with hold | hnew
    · exact Nat.lt_succ_of_lt (hrlt rec hold)
    · rw [List.mem_singleton.mp hnew]
      exact Nat.lt_succ_self _
  · intro rs hrs
    show rs.record_id < st.next_record_id + 1
    rcases List.mem_append.mp hrs with hold | hnew
    · exact Nat.lt_succ_of_lt (hrslt rs hold)
    · obtain ⟨d, _, rfl⟩ := List.mem_map.mp hnew
      exact Nat.lt_succ_self _
  · show ((st.record_stages ++ fanoutStages st.next_record_id (activeStageDefs st)).map
      rsKey).Nodup
    rw [List.map_append, List.nodup_append]
    refine ⟨hkeys, ?_, ?_⟩
    · unfold fanoutStages
      rw [List.map_map]
      have : (rsKey ∘ fun d : StageDef => mkStageRow st.next_record_id d.id)
          = (fun i => (st.next_record_id, i)) ∘ (·.id) := rfl
      rw [this, ← List.map_map]
      apply List.Nodup.map
      · intro a b hab
        exact (Prod.mk.injEq _ _ _ _ ▸ hab).2
      · exact ((List.filter_sublist st.stage_defs).map (·.id)).nodup hdinodup
    · intro x hx hy
      obtain ⟨rs, hrs, rfl⟩ := List.mem_map.mp hx
      obtain ⟨rs2, hrs2, hkey⟩ := List.mem_map.mp hy
      obtain ⟨d, _, rfl⟩ := List.mem_map.mp hrs2
      have h1 : rs.record_id = st.next_record_id := congrArg Prod.fst hkey.symm
      exact absurd h1 (Nat.ne_of_lt (hrslt rs hrs))

theorem StageInv_insertRecord (st : Storage) (r : ImportRow) (hwf : WF st)
    (hinv : StageInv st) : StageInv (insertRecord st r) := by
  obtain ⟨hrinodup, hdinodup, hrlt, hrslt, hkeys⟩ := hwf
  intro rec hrec hact d hd hdact
  have hd' : d ∈ st.stage_defs := hd
  rcases List.mem_append.mp hrec with hold | hnew
  · rw [stageCount_insertRecord_ne st r rec.id d.id (Nat.ne_of_lt (hrlt rec hold))]
    exact hinv rec hold hact d hd' hdact
  · have hrecid : rec.id = st.next_record_id := by
      rw [List.mem_singleton.mp hnew]
      rfl
    rw [hrecid]
    exact stageCount_insertRecord_new st r d
      (List.mem_filter.mpr ⟨hd', hdact⟩) hdinodup hrslt

theorem foldl_insertRecord_WF_inv (rows : List ImportRow) :
    ∀ st : Storage, WF st → StageInv st →
      WF (rows.foldl insertRecord st) ∧ StageInv (rows.foldl insertRecord st) := by
  induction rows with
  | nil => exact fun st hwf hinv => ⟨hwf, hinv⟩
  | cons r rs ih =>
    intro st hwf hinv
    exact ih (insertRecord st r) (WF_insertRecord st r hwf)
      (StageInv_insertRecord st r hwf hinv)

theorem foldl_insertRecord_stages (rows : List ImportRow) :
    ∀ st : Storage, ∃ added,
      (rows.foldl insertRecord st).record_stages = st.record_stages ++ added
      ∧ added.length = rows.length * (activeStageDefs st).length
      ∧ ∀ rs ∈ added, rs.is_completed = false := by
  induction rows with
  | nil => exact fun st => ⟨[], by simp⟩
  | cons r rs ih =>
    intro st
    obtain ⟨added, hadd, hlen, hfalse⟩ := ih (insertRecord st r)
    refine ⟨fanoutStages st.next_record_id (activeStageDefs st) ++ added, ?_, ?_, ?_⟩
    · have hstep : (r :: rs).foldl insertRecord st = rs.foldl insertRecord (insertRecord st r) :=
        rfl
      rw [hstep, hadd]
      show ((st.record_stages ++ fanoutStages st.next_record_id (activeStageDefs st)) ++ added)
          = _
      rw [List.append_assoc]
    · have hact : activeStageDefs (insertRecord st r) = activeStageDefs st := rfl
      rw [List.length_append, hlen, hact]
      show (List.map _ (activeStageDefs st)).length + rs.length * (activeStageDefs st).length
          = (rs.length + 1) * (activeStageDefs st).length
      rw [List.length_map, Nat.succ_mul]
      omega
    · intro rs2 hrs2
      rcases List.mem_append.mp hrs2 with hfan | hin
      · obtain ⟨d, _, rfl⟩ := List.mem_map.mp hfan
        rfl
      · exact hfalse rs2 hin

theorem foldl_insertRecord_records_length (rows : List ImportRow) :
    ∀ st : Storage, (rows.foldl insertRecord st).records.length
      = st.records.length + rows.length := by
  induction rows with
  | nil => intro st; simp
  | cons r rs ih =>
    intro st
    have hstep : (r :: rs).foldl insertRecord st = rs.foldl insertRecord (insertRecord st r) :=
      rfl
    rw [hstep, ih]
    show (st.records ++ [mkRecord st.users st.next_record_id r]).length + rs.length = _
    rw [List.length_append]
    simp
    omega

theorem StageInv_createStageDef (st : Storage) (d : StageDef)
    (hwf : WF st) (hinv : StageInv st)
    (hfresh : d.id ∉ st.stage_defs.map (·.id)) :
    StageInv (createStageDef st d) := by
  obtain ⟨hrinodup, hdinodup, hrlt, hrslt, hkeys⟩ := hwf
  intro rec hrec hact d' hd' hd'act
  have hrec' : rec ∈ st.records := hrec
  have hstages : (createStageDef st d).record_stages = st.record_stages ++
      ((st.records.filter fun rec' => rec'.is_active && lacksStage st rec'.id d.id).map
        fun rec' => mkStageRow rec'.id d.id) := rfl
  show (createStageDef st d).record_stages.countP
    (fun rs => rs.record_id == rec.id && rs.stage_id == d'.id) = 1
  rw [hstages, List.countP_append]
  rcases List.mem_append.mp hd' with hold | hnewd
  · have haz : (((st.records.filter fun rec' =>
        rec'.is_active && lacksStage st rec'.id d.id).map
          fun rec' => mkStageRow rec'.id d.id).countP
        fun rs => rs.record_id == rec.id && rs.stage_id == d'.id) = 0 := by
      apply List.countP_eq_zero.mpr
      intro x hx
      obtain ⟨rec2, _, rfl⟩ := List.mem_map.mp hx
      simp only [mkStageRow, Bool.and_eq_true, beq_iff_eq]
      rintro ⟨-, h2⟩
      exact hfresh (h2 ▸ List.mem_map_of_mem _ hold)
    rw [haz]
    have := hinv rec hrec' hact d' hold hd'act
    unfold stageCount at this
    omega
  · rw [List.mem_singleton.mp hnewd]
    cases hl : lacksStage st rec.id d.id with
    | true =>
      have hz : (st.record_stages.countP
          fun rs => rs.record_id == rec.id && rs.stage_id == d.id) = 0 := by
        apply List.countP_eq_zero.mpr
        intro rs hrs
        have hany : (st.record_stages.any
            fun rs => rs.record_id == rec.id && rs.stage_id == d.id) = false := by
          have h1 := hl
          unfold lacksStage at h1
          simpa using h1
        exact List.any_eq_false.mp hany rs hrs
      have hone : (((st.records.filter fun rec' =>
          rec'.is_active && lacksStage st rec'.id d.id).map
            fun rec' => mkStageRow rec'.id d.id).countP
          fun rs => rs.record_id == rec.id && rs.stage_id == d.id) = 1 := by
        rw [List.countP_map]
        have hcongr : (((st.records.filter fun rec' =>
              rec'.is_active && lacksStage st rec'.id d.id)).countP
              ((fun rs => rs.record_id == rec.id && rs.stage_id == d.id) ∘
                fun rec' => mkStageRow rec'.id d.id))
            = ((st.records.filter fun rec' =>
              rec'.is_active && lacksStage st rec'.id d.id)).countP
              fun rec' => rec'.id == rec.id :=
          List.countP_congr fun rec' _ => by simp [mkStageRow]
        rw [hcongr]
        apply countP_key_eq_one (·.id) _ rec
        · exact ((List.filter_sublist st.records).map (·.id)).nodup hrinodup
        · exact List.mem_filter.mpr ⟨hrec', by rw [hact, hl]; rfl⟩
      rw [hz, hone]
    | false =>
      have hany : (st.record_stages.any
          fun rs => rs.record_id == rec.id && rs.stage_id == d.id) = true := by
        have h1 := hl
        unfold lacksStage at h1
        simpa using h1
      have hpos : 0 < st.record_stages.countP
          (fun rs => rs.record_id == rec.id && rs.stage_id == d.id) := by
        obtain ⟨x, hx, hpx⟩ := List.any_eq_true.mp hany
        exact List.countP_pos_iff.mpr ⟨x, hx, hpx⟩
      have hle : st.record_stages.countP
          (fun rs => rs.record_id == rec.id && rs.stage_id == d.id) ≤ 1 := by
        have hcongr : (st.record_stages.countP
              fun rs => rs.record_id == rec.id && rs.stage_id == d.id)
            = st.record_stages.countP fun rs => rsKey rs == (rec.id, d.id) :=
          List.countP_congr fun rs _ => by
            simp [rsKey, Prod.ext_iff]
        rw [hcongr]
        exact countP_key_le_one rsKey (rec.id, d.id) st.record_stages hkeys
      have hz2 : (((st.records.filter fun rec' =>
          rec'.is_active && lacksStage st rec'.id d.id).map
            fun rec' => mkStageRow rec'.id d.id).countP
          fun rs => rs.record_id == rec.id && rs.stage_id == d.id) = 0 := by
        apply List.countP_eq_zero.mpr
        intro x hx
        obtain ⟨rec2, hrec2, rfl⟩ := List.mem_map.mp hx
        simp only [mkStageRow, Bool.and_eq_true, beq_iff_eq]
        rintro ⟨h1, -⟩
        have hrec2' : rec2 ∈ st.records := List.mem_of_mem_filter hrec2
        have : rec2 = rec := List.inj_on_of_nodup_map hrinodup hrec2' hrec' h1
        subst this
        have := (List.mem_filter.mp hrec2).2
        rw [hl] at this
        simp at this
      rw [hz2]
      omega

theorem backfillDef_idem (st : Storage) (d : StageDef) :
    backfillDef (backfillDef st d) d = backfillDef st d := by
  have hfilter : ((backfillDef st d).records.filter fun rec =>
      rec.is_active && lacksStage (backfillDef st d) rec.id d.id) = [] := by
    rw [List.filter_eq_nil_iff]
    intro rec hrec
    rw [Bool.and_eq_true, not_and]
    intro hact hlack
    have hany : ((backfillDef st d).record_stages.any
        fun rs => rs.record_id == rec.id && rs.stage_id == d.id) = false := by
      have h1 : (!((backfillDef st d).record_stages.any
          fun rs => rs.record_id == rec.id && rs.stage_id == d.id)) = true := hlack
      simpa using h1
    rw [show (backfillDef st d).record_stages = st.record_stages ++
          ((st.records.filter fun rec' => rec'.is_active && lacksStage st rec'.id d.id).map
            fun rec' => mkStageRow rec'.id d.id) from rfl,
      List.any_append, Bool.or_eq_false_iff] at hany
    cases hl : lacksStage st rec.id d.id with
    | false =>
      have h2 : (st.record_stages.any
          fun rs => rs.record_id == rec.id && rs.stage_id == d.id) = true := by
        have h3 := hl
        unfold lacksStage at h3
        simpa using h3
      rw [hany.1] at h2
      exact Bool.false_ne_true h2
    | true =>
      have hmem : mkStageRow rec.id d.id ∈
          ((st.records.filter fun rec' => rec'.is_active && lacksStage st rec'.id d.id).map
            fun rec' => mkStageRow rec'.id d.id) := by
        apply List.mem_map_of_mem
        apply List.mem_filter.mpr
        exact ⟨hrec, by rw [hact, hl]; rfl⟩
      have h4 : (((st.records.filter fun rec' =>
          rec'.is_active && lacksStage st rec'.id d.id).map
            fun rec' => mkStageRow rec'.id d.id).any
          fun rs => rs.record_id == rec.id && rs.stage_id == d.id) = true :=
        List.any_eq_true.mpr ⟨_, hmem, by simp [mkStageRow]⟩
      rw [hany.2] at h4
      exact Bool.false_ne_true h4
  show ({ backfillDef st d with
      record_stages := (backfillDef st d).record_stages ++
        (((backfillDef st d).records.filter fun rec =>
            rec.is_active && lacksStage (backfillDef st d) rec.id d.id).map
          fun rec => mkStageRow rec.id d.id) } : Storage) = backfillDef st d
  rw [hfilter]
  simp

theorem WF_createAssignees (names : List String) (st : Storage) (h : WF st) :
    WF (createAssignees st names) := by
  obtain ⟨u, k, he⟩ := createAssignees_eq names st
  rw [he]
  exact h

theorem StageInv_createAssignees (names : List String) (st : Storage) (h : StageInv st) :
    StageInv (createAssignees st names) := by
  obtain ⟨u, k, he⟩ := createAssignees_eq names st
  rw [he]
  exact h

theorem activeStageDefs_createAssignees (names : List String) (st : Storage) :
    activeStageDefs (createAssignees st names) = activeStageDefs st := by
  unfold activeStageDefs
  rw [createAssignees_stage_defs]

theorem overwriteRow_spec (st : Storage) (r : ImportRow) :
    (overwriteRow st r).1 = insertRecord st r
    ∨ ∃ g : Record → Record,
        (overwriteRow st r).1 = { st with records := st.records.map g }
        ∧ ∀ rec : Record, (g rec).id = rec.id ∧ (g rec).is_active = rec.is_active := by
  unfold overwriteRow
  cases hemp : (fingerprintOf r).isEmpty with
  | true => left; simp [hemp]
  | false =>
    cases hfind : st.records.find? (fun rec => rec.fingerprint = fingerprintOf r) with
    | none => left; simp [hemp, hfind]
    | some w =>
      right
      refine ⟨fun rec => if rec.fingerprint = fingerprintOf r
          then applyOverwrite st.users rec r else rec, ?_, ?_⟩
      · simp [hemp, hfind]
      · intro rec
        by_cases hc : rec.fingerprint = fingerprintOf r
        · simp only [hc, if_true]
          exact ⟨rfl, rfl⟩
        · simp [hc]

theorem WF_mapRecords (st : Storage) (g : Record → Record)
    (hg : ∀ rec : Record, (g rec).id = rec.id ∧ (g rec).is_active = rec.is_active)
    (h : WF st) : WF { st with records := st.records.map g } := by
  obtain ⟨h1, h2, h3, h4, h5⟩ := h
  have hids : (st.records.map g).map (·.id) = st.records.map (·.id) := by
    rw [List.map_map]
    exact List.map_congr_left fun rec _ => (hg rec).1
  refine ⟨?_, h2, ?_, h4, h5⟩
  · show ((st.records.map g).map (·.id)).Nodup
    rw [hids]
    exact h1
  · intro rec' hrec'
    obtain ⟨rec, hrec, rfl⟩ := List.mem_map.mp hrec'
    show (g rec).id < st.next_record_id
    rw [(hg rec).1]
    exact h3 rec hrec

theorem StageInv_mapRecords (st : Storage) (g : Record → Record)
    (hg : ∀ rec : Record, (g rec).id = rec.id ∧ (g rec).is_active = rec.is_active)
    (hinv : StageInv st) : StageInv { st with records := st.records.map g } := by
  intro rec' hrec' hact d hd hdact
  obtain ⟨rec, hrec, rfl⟩ := List.mem_map.mp hrec'
  have hact' : rec.is_active = true := by
    rw [← (hg rec).2]
    exact hact
  show stageCount { st with records := st.records.map g } (g rec).id d.id = 1
  rw [(hg rec).1]
  exact hinv rec hrec hact' d hd hdact

theorem overwriteStep_state (acc : Storage × Nat) (r : ImportRow) :
    (overwriteStep acc r).1 = (overwriteRow acc.1 r).1 := rfl

theorem overwriteStep_WF_inv (acc : Storage × Nat) (r : ImportRow)
    (hwf : WF acc.1) (hinv : StageInv acc.1) :
    WF (overwriteStep acc r).1 ∧ StageInv (overwriteStep acc r).1 := by
  rw [overwriteStep_state]
  rcases overwriteRow_spec acc.1 r with heq | ⟨g, heq, hg⟩
  · rw [heq]
    exact ⟨WF_insertRecord _ r hwf, StageInv_insertRecord _ r hwf hinv⟩
  · rw [heq]
    exact ⟨WF_mapRecords _ g hg hwf, StageInv_mapRecords _ g hg hinv⟩

theorem overwriteFold_WF_inv (rows : List ImportRow) :
    ∀ acc : Storage × Nat, WF acc.1 → StageInv acc.1 →
      WF (rows.foldl overwriteStep acc).1 ∧ StageInv (rows.foldl overwriteStep acc).1 := by
  induction rows with
  | nil => exact fun acc hwf hinv => ⟨hwf, hinv⟩
  | cons r rs ih =>
    intro acc hwf hinv
    obtain ⟨hwf', hinv'⟩ := overwriteStep_WF_inv acc r hwf hinv
    exact ih (overwriteStep acc r) hwf' hinv'

theorem overwriteRow_stage_defs (st : Storage) (r : ImportRow) :
    (overwriteRow st r).1.stage_defs = st.stage_defs := by
  rcases overwriteRow_spec st r with heq | ⟨g, heq, -⟩ <;> rw [heq] <;> rfl

theorem overwriteFold_stages (rows : List ImportRow) :
    ∀ acc : Storage × Nat, ∃ added k,
      (rows.foldl overwriteStep acc).1.record_stages = acc.1.record_stages ++ added
      ∧ (rows.foldl overwriteStep acc).1.records.length = acc.1.records.length + k
      ∧ added.length = k * (activeStageDefs acc.1).length
      ∧ ∀ rs ∈ added, rs.is_completed = false := by
  induction rows with
  | nil => exact fun acc => ⟨[], 0, by simp, by simp, by simp, by simp⟩
  | cons r rs ih =>
    intro acc
    obtain ⟨added, k, h1, h2, h3, h4⟩ := ih (overwriteStep acc r)
    have hstep : (r :: rs).foldl overwriteStep acc
        = rs.foldl overwriteStep (overwriteStep acc r) := rfl
    have hdefs : activeStageDefs (overwriteStep acc r).1 = activeStageDefs acc.1 := by
      unfold activeStageDefs
      rw [overwriteStep_state, overwriteRow_stage_defs]
    rw [hdefs] at h3
    rcases overwriteRow_spec acc.1 r with heq | ⟨g, heq, -⟩
    · have hacc1 : (overwriteStep acc r).1 = insertRecord acc.1 r := by
        rw [overwriteStep_state, heq]
      refine ⟨fanoutStages acc.1.next_record_id (activeStageDefs acc.1) ++ added,
        k + 1, ?_, ?_, ?_, ?_⟩
      · rw [hstep, h1, hacc1]
        show (acc.1.record_stages ++ fanoutStages acc.1.next_record_id
            (activeStageDefs acc.1)) ++ added = _
        rw [List.append_assoc]
      · rw [hstep, h2, hacc1]
        show (acc.1.records ++ [mkRecord acc.1.users acc.1.next_record_id r]).length + k = _
        rw [List.length_append]
        simp
        omega
      · rw [List.length_append, h3]
        show (List.map _ (activeStageDefs acc.1)).length
            + k * (activeStageDefs acc.1).length = _
        rw [List.length_map, Nat.succ_mul]
        omega
      · intro rs2 hrs2
        rcases List.mem_append.mp hrs2 with hfan | hin
        · obtain ⟨d, -, rfl⟩ := List.mem_map.mp hfan
          rfl
        · exact h4 rs2 hin
    · have hacc1 : (overwriteStep acc r).1 = { acc.1 with records := acc.1.records.map g } := by
        rw [overwriteStep_state, heq]
      refine ⟨added, k, ?_, ?_, h3, h4⟩
      · rw [hstep, h1, hacc1]
      · rw [hstep, h2, hacc1]
        show (acc.1.records.map g).length + k = _
        rw [List.length_map]

/-- C5: both import commits (insert-only and overwrite) preserve the
one-RecordStage-per-active-pair invariant and append exactly
created × S uncompleted stage rows (S the number of active stage
definitions, created the number of newly created Records);
StageDefinition creation re-establishes the invariant via its backfill,
and re-running the backfill never creates a second RecordStage for an
existing pair. -/
theorem stage_fanout_invariant (st : Storage) (f : RawFile) (d : StageDef)
    (hwf : WF st) (hinv : StageInv st)
    (hfresh : d.id ∉ st.stage_defs.map (·.id)) :
    StageInv (commitInsertOnly f st).1
    ∧ (∃ added, (commitInsertOnly f st).1.record_stages = st.record_stages ++ added
        ∧ added.length = ((commitInsertOnly f st).1.records.length - st.records.length)
            * (activeStageDefs st).length
        ∧ ∀ rs ∈ added, rs.is_completed = false)
    ∧ StageInv (commitOverwrite f st).1
    ∧ (∃ added, (commitOverwrite f st).1.record_stages = st.record_stages ++ added
        ∧ added.length = ((commitOverwrite f st).1.records.length - st.records.length)
            * (activeStageDefs st).length
        ∧ ∀ rs ∈ added, rs.is_completed = false)
    ∧ StageInv (createStageDef st d)
    ∧ backfillDef (createStageDef st d) d = createStageDef st d := by
  refine ⟨?_, ?_, ?_, ?_, StageInv_createStageDef st d hwf hinv hfresh, backfillDef_idem _ d⟩
  · cases hp : parseFile f with
    | error e =>
      have : (commitInsertOnly f st).1 = st := by simp [commitInsertOnly, hp]
      rw [this]
      exact hinv
    | ok cells =>
      have hstate : (commitInsertOnly f st).1 = (commitRowsInsertOnly st (goodRows cells)).1 := by
        simp only [commitInsertOnly, hp]
      rw [hstate]
      exact (foldl_insertRecord_WF_inv _ _
        (WF_createAssignees _ st hwf) (StageInv_createAssignees _ st hinv)).2
  · cases hp : parseFile f with
    | error e =>
      have : (commitInsertOnly f st).1 = st := by simp [commitInsertOnly, hp]
      rw [this]
      exact ⟨[], by simp, by simp, by simp⟩
    | ok cells =>
      have hstate : (commitInsertOnly f st).1 = (commitRowsInsertOnly st (goodRows cells)).1 := by
        simp only [commitInsertOnly, hp]
      rw [hstate]
      obtain ⟨added, hadd, hlen, hfalse⟩ :=
        foldl_insertRecord_stages
          (((detect st.fps (goodRows cells)).filter fun a => !a.dup).map (·.row))
          (createAssignees st (newAssigneeNames st
            (((detect st.fps (goodRows cells)).filter fun a => !a.dup).map (·.row))))
      refine ⟨added, ?_, ?_, hfalse⟩
      · show ((((detect st.fps (goodRows cells)).filter fun a => !a.dup).map (·.row)).foldl
            insertRecord (createAssignees st (newAssigneeNames st
              (((detect st.fps (goodRows cells)).filter fun a => !a.dup).map
                (·.row))))).record_stages = _
        rw [hadd, createAssignees_record_stages]
      · rw [hlen, activeStageDefs_createAssignees]
        congr 1
        show _ = ((((detect st.fps (goodRows cells)).filter fun a => !a.dup).map (·.row)).foldl
            insertRecord (createAssignees st (newAssigneeNames st
              (((detect st.fps (goodRows cells)).filter fun a => !a.dup).map
                (·.row))))).records.length - st.records.length
        rw [foldl_insertRecord_records_length, createAssignees_records]
        omega
  · cases hp : parseFile f with
    | error e =>
      have : (commitOverwrite f st).1 = st := by simp [commitOverwrite, hp]
      rw [this]
      exact hinv
    | ok cells =>
      have hstate : (commitOverwrite f st).1
          = ((goodRows cells).foldl overwriteStep
              (createAssignees st (newAssigneeNames st (goodRows cells)), 0)).1 := by
        simp only [commitOverwrite, hp]
      rw [hstate]
      exact (overwriteFold_WF_inv _ _
        (WF_createAssignees _ st hwf) (StageInv_createAssignees _ st hinv)).2
  · cases hp : parseFile f with
    | error e =>
      have : (commitOverwrite f st).1 = st := by simp [commitOverwrite, hp]
      rw [this]
      exact ⟨[], by simp, by simp, by simp⟩
    | ok cells =>
      have hstate : (commitOverwrite f st).1
          = ((goodRows cells).foldl overwriteStep
              (createAssignees st (newAssigneeNames st (goodRows cells)), 0)).1 := by
        simp only [commitOverwrite, hp]
      rw [hstate]
      obtain ⟨added, k, h1, h2, h3, h4⟩ := overwriteFold_stages (goodRows cells)
        (createAssignees st (newAssigneeNames st (goodRows cells)), 0)
      have h1' : ((goodRows cells).foldl overwriteStep
            (createAssignees st (newAssigneeNames st (goodRows cells)), 0)).1.record_stages
          = st.record_stages ++ added := by
        rw [h1]
        show (createAssignees st (newAssigneeNames st (goodRows cells))).record_stages
            ++ added = _
        rw [createAssignees_record_stages]
      have h2' : ((goodRows cells).foldl overwriteStep
            (createAssignees st (newAssigneeNames st (goodRows cells)), 0)).1.records.length
          = st.records.length + k := by
        rw [h2]
        show (createAssignees st (newAssigneeNames st (goodRows cells))).records.length
            + k = _
        rw [createAssignees_records]
      have h3' : added.length = k * (activeStageDefs st).length := by
        rw [h3]
        show k * (activeStageDefs
            (createAssignees st (newAssigneeNames st (goodRows cells)))).length = _
        rw [activeStageDefs_createAssignees]
      refine ⟨added, h1', ?_, h4⟩
      rw [h3', h2']
      congr 1
      omega

/-- An active stage definition present from the start. -/
def stageDefA : StageDef :=
  { id := 1, code := "EMAIL", name := "Email Sent", display_order := 1
    is_default := true, is_active := true }

/-- A second, fresh stage definition. -/
def stageDefB : StageDef :=
  { id := 2, code := "PO", name := "PO Received", display_order := 2
    is_default := false, is_active := true }

/-- A consistent storage state: one active record, one active stage
definition and the matching stage-progress row. -/
def storageStage : Storage :=
  { records := [recPlain], users := [], stage_defs := [stageDefA]
    record_stages := [mkStageRow recPlain.id stageDefA.id]
    next_record_id := 2, next_user_id := 1 }

theorem stage_fanout_invariant_witness :
    StageInv (commitInsertOnly fileEmptyKeys storageStage).1
    ∧ (∃ added, (commitInsertOnly fileEmptyKeys storageStage).1.record_stages
          = storageStage.record_stages ++ added
        ∧ added.length = ((commitInsertOnly fileEmptyKeys storageStage).1.records.length
              - storageStage.records.length) * (activeStageDefs storageStage).length
        ∧ ∀ rs ∈ added, rs.is_completed = false)
    ∧ StageInv (commitOverwrite fileEmptyKeys storageStage).1
    ∧ (∃ added, (commitOverwrite fileEmptyKeys storageStage).1.record_stages
          = storageStage.record_stages ++ added
        ∧ added.length = ((commitOverwrite fileEmptyKeys storageStage).1.records.length
              - storageStage.records.length) * (activeStageDefs storageStage).length
        ∧ ∀ rs ∈ added, rs.is_completed = false)
    ∧ StageInv (createStageDef storageStage stageDefB)
    ∧ backfillDef (createStageDef storageStage stageDefB) stageDefB
        = createStageDef storageStage stageDefB :=
  stage_fanout_invariant storageStage fileEmptyKeys stageDefB
    ⟨by decide, by decide, by decide, by decide, by decide⟩
    (by unfold StageInv; decide) (by decide)

end Cibics
